import Mathlib

/-!
Verification development for the webquotes repository: a shallow embedding of
the substitution-mining core (src/brainscopypaste/mine.py) and of the distance
primitives (src/linguistics/memetracker.py), together with theorems settling
the specification claims.

Conventions of the embedding:
* sequences are `List α`; Python slices `s[i:i+l]` become `(s.drop i).take l`;
* machine timestamps (`datetime`) are `Nat` numbers of seconds counted from a
  midnight-aligned epoch, so that "midnight of the day containing t" is
  `(t / binSpan) * binSpan` with `binSpan = 86400`;
* numpy values (`np.argmin`, `distances[amin]`) are modelled value-wise
  (`np.argmin` returns the first index achieving the minimum).
-/

namespace WebQuotes

/-- Function `hamming` from src/linguistics/memetracker.py: `-1` on unequal lengths,
otherwise the number of index-wise mismatches of the zipped sequences. -/
def hamming {α : Type} [DecidableEq α] (s1 s2 : List α) : Int :=
  if s1.length ≠ s2.length then -1
  else ((s1.zip s2).countP (fun p => decide (p.1 ≠ p.2)) : Nat)

/-- Function `sublists` from src/linguistics/memetracker.py: all length-`l` windows
`s[i:i+l]` for `i` in `range(len(s) - l + 1)`. -/
def sublists {α : Type} (s : List α) (l : Nat) : List (List α) :=
  (List.range (s.length - l + 1)).map (fun i => (s.drop i).take l)

/-- Minimum of a list of integers (`0` for the empty list, which never occurs
at call sites: `np.argmin` is only applied to nonempty arrays). -/
def minList : List Int → Int
  | [] => 0
  | [x] => x
  | x :: y :: t => min x (minList (y :: t))

/-- Embedding of `np.argmin`: index of the first occurrence of the minimum (junk `0` on the
empty list, which never occurs at call sites). -/
def npArgmin : List Int → Nat
  | [] => 0
  | [_] => 0
  | x :: y :: t => if x ≤ minList (y :: t) then 0 else npArgmin (y :: t) + 1

/-- Function `subhamming` from src/linguistics/memetracker.py: the sentinel
`(-1, -1, -1)` when `len(s1) < len(s2)`, the single window when lengths are
equal, otherwise `(distances[amin], amin, len(s2))` where `distances` ranges
over all windows and `amin = np.argmin(distances)`. -/
def subhamming {α : Type} [DecidableEq α] (s1 s2 : List α) : Int × Int × Int :=
  if s1.length < s2.length then (-1, -1, -1)
  else if s1.length = s2.length then (hamming s1 s2, 0, (s2.length : Int))
  else
    let distances := (sublists s1 s2.length).map (fun subs => hamming subs s2)
    let amin := npArgmin distances
    (distances.getD amin 0, (amin : Int), (s2.length : Int))

section MinArgminLemmas

theorem minList_le_get (l : List Int) (i : Fin l.length) : minList l ≤ l.get i := by
  induction l with
  | nil => exact absurd i.isLt (by simp)
  | cons x t ih =>
    cases t with
    | nil =>
      rcases i with ⟨iv, hi⟩
      have h0 : iv = 0 := by
        simp only [List.length_cons, List.length_nil] at hi
        omega
      subst h0
      simp [minList]
    | cons y t' =>
      rcases i with ⟨iv, hi⟩
      cases iv with
      | zero => simp [minList]
      | succ n =>
        have hn : n < (y :: t').length := by simpa using hi
        have := ih ⟨n, hn⟩
        simp only [minList, List.get]
        exact le_trans (min_le_right _ _) this

theorem npArgmin_lt_length (l : List Int) (h : l ≠ []) : npArgmin l < l.length := by
  induction l with
  | nil => exact absurd rfl h
  | cons x t ih =>
    cases t with
    | nil => simp [npArgmin]
    | cons y t' =>
      by_cases hx : x ≤ minList (y :: t')
      · simp [npArgmin, hx]
      · have := ih (by simp)
        simp only [List.length_cons] at this
        simp only [npArgmin, if_neg hx, List.length_cons]
        omega

theorem get_npArgmin (l : List Int) (h : npArgmin l < l.length) :
    l.get ⟨npArgmin l, h⟩ = minList l := by
  induction l with
  | nil => simp at h
  | cons x t ih =>
    cases t with
    | nil => simp [npArgmin, minList]
    | cons y t' =>
      by_cases hx : x ≤ minList (y :: t')
      · simp [npArgmin, hx, minList, min_eq_left hx]
      · have hlt : npArgmin (y :: t') < (y :: t').length :=
          npArgmin_lt_length _ (by simp)
        have := ih hlt
        simp only [npArgmin, if_neg hx, minList, List.get]
        rw [this]
        have : minList (y :: t') ≤ x := le_of_not_le hx
        omega

theorem minList_lt_get_of_lt_npArgmin (l : List Int) (j : Nat)
    (hj : j < l.length) (hlt : j < npArgmin l) :
    minList l < l.get ⟨j, hj⟩ := by
  induction l generalizing j with
  | nil => simp at hj
  | cons x t ih =>
    cases t with
    | nil => simp [npArgmin] at hlt
    | cons y t' =>
      by_cases hx : x ≤ minList (y :: t')
      · simp [npArgmin, hx] at hlt
      · have hmin : minList (x :: y :: t') = minList (y :: t') := by
          simp [minList, min_eq_right (le_of_not_le hx)]
        cases j with
        | zero =>
          simp only [hmin, List.get]
          exact lt_of_not_le hx
        | succ n =>
          have hn : n < (y :: t').length := by simpa using hj
          have hlt' : n < npArgmin (y :: t') := by
            simp only [npArgmin, if_neg hx] at hlt
            omega
          have := ih n hn hlt'
          simpa [hmin, List.get] using this

end MinArgminLemmas

section SubhammingLemmas

variable {α : Type} [DecidableEq α]

omit [DecidableEq α] in
theorem length_window (a : List α) (i l : Nat) (h : i + l ≤ a.length) :
    ((a.drop i).take l).length = l := by
  simp only [List.length_take, List.length_drop]
  omega

theorem length_distances (a b : List α) :
    ((sublists a b.length).map (fun subs => hamming subs b)).length =
      a.length - b.length + 1 := by
  simp [sublists]

theorem get_distances (a b : List α) (j : Nat)
    (hj : j < ((sublists a b.length).map (fun subs => hamming subs b)).length) :
    ((sublists a b.length).map (fun subs => hamming subs b)).get ⟨j, hj⟩ =
      hamming ((a.drop j).take b.length) b := by
  simp [sublists, List.get_eq_getElem]

theorem getD_distances (a b : List α) (j : Nat)
    (hj : j < ((sublists a b.length).map (fun subs => hamming subs b)).length) :
    ((sublists a b.length).map (fun subs => hamming subs b)).getD j 0 =
      hamming ((a.drop j).take b.length) b := by
  rw [List.getD_eq_getElem _ 0 hj]
  simp [sublists]

/-- Decomposition of `subhamming a b` in the defined case `len(b) ≤ len(a)`:
it returns the Hamming distance of the window at some offset `i`, that offset,
and `len(b)`; the offset is in range, its distance is minimal over all
in-range offsets, and every strictly earlier offset has strictly larger
distance (first-minimum semantics of `np.argmin`). -/
theorem subhamming_spec (a b : List α) (h : b.length ≤ a.length) :
    ∃ i : Nat,
      subhamming a b =
        (hamming ((a.drop i).take b.length) b, (i : Int), (b.length : Int)) ∧
      i + b.length ≤ a.length ∧
      (∀ j : Nat, j + b.length ≤ a.length →
        hamming ((a.drop i).take b.length) b ≤
          hamming ((a.drop j).take b.length) b) ∧
      (∀ j : Nat, j < i →
        hamming ((a.drop i).take b.length) b <
          hamming ((a.drop j).take b.length) b) := by
  by_cases heq : a.length = b.length
  · refine ⟨0, ?_, ?_, ?_, ?_⟩
    · have hwin : (a.drop 0).take b.length = a := by
        rw [List.drop_zero, ← heq, List.take_length]
      rw [hwin]
      simp [subhamming, heq]
    · omega
    · intro j hja
      have : j = 0 := by omega
      subst this
      exact le_refl _
    · intro j hj
      exact absurd hj (by omega)
  · have hlt : b.length < a.length := lt_of_le_of_ne h (fun he => heq he.symm)
    set distances := (sublists a b.length).map (fun subs => hamming subs b)
      with hdist
    have hlen : distances.length = a.length - b.length + 1 :=
      length_distances a b
    have hne : distances ≠ [] := by
      intro hc
      rw [hc] at hlen
      simp at hlen
    have hamin : npArgmin distances < distances.length :=
      npArgmin_lt_length distances hne
    refine ⟨npArgmin distances, ?_, ?_, ?_, ?_⟩
    · have hval : distances.getD (npArgmin distances) 0 =
          hamming ((a.drop (npArgmin distances)).take b.length) b :=
        getD_distances a b (npArgmin distances) hamin
      simp only [subhamming, if_neg (not_lt.mpr h), if_neg heq]
      rw [← hdist, hval]
    · rw [hlen] at hamin
      omega
    · intro j hja
      have hj : j < distances.length := by rw [hlen]; omega
      have h1 : hamming ((a.drop (npArgmin distances)).take b.length) b =
          minList distances := by
        rw [← get_distances a b _ hamin]
        exact get_npArgmin distances hamin
      have h2 : minList distances ≤ distances.get ⟨j, hj⟩ :=
        minList_le_get distances ⟨j, hj⟩
      rw [get_distances a b j hj] at h2
      rw [h1]
      exact h2
    · intro j hj
      have hjlen : j < distances.length := lt_trans hj hamin
      have h1 : hamming ((a.drop (npArgmin distances)).take b.length) b =
          minList distances := by
        rw [← get_distances a b _ hamin]
        exact get_npArgmin distances hamin
      have h2 : minList distances < distances.get ⟨j, hjlen⟩ :=
        minList_lt_get_of_lt_npArgmin distances j hjlen hj
      rw [get_distances a b j hjlen] at h2
      rw [h1]
      exact h2

/-- On equal-length lists `hamming` is is the (nonnegative) mismatch count. -/
theorem hamming_eq_countP (s1 s2 : List α) (h : s1.length = s2.length) :
    hamming s1 s2 = ((s1.zip s2).countP (fun p => decide (p.1 ≠ p.2)) : Nat) := by
  simp [hamming, h]

theorem subhamming_short (a b : List α) (h : a.length < b.length) :
    subhamming a b = (-1, -1, -1) := by
  simp [subhamming, h]

theorem countP_mismatch_comm : ∀ (a b : List α),
    (a.zip b).countP (fun p => !decide (p.1 = p.2)) =
      (b.zip a).countP (fun p => !decide (p.1 = p.2))
  | [], b => by simp
  | a :: as, [] => by simp
  | a :: as, b :: bs => by
    rw [List.zip_cons_cons, List.zip_cons_cons, List.countP_cons,
      List.countP_cons, countP_mismatch_comm as bs]
    by_cases h : a = b
    · simp [h]
    · have h' : ¬b = a := fun hc => h hc.symm
      simp [h, h']

theorem hamming_comm (a b : List α) : hamming a b = hamming b a := by
  by_cases h : a.length = b.length
  · simp only [hamming, h, ne_eq, not_true_eq_false, if_false, ite_false,
      if_neg (not_not_intro rfl), decide_not]
    exact_mod_cast countP_mismatch_comm a b
  · have h' : ¬b.length = a.length := fun hc => h hc.symm
    simp [hamming, h, h']

theorem subhamming_fst_le_offset0 (a b : List α) (h : b.length ≤ a.length) :
    (subhamming a b).1 ≤ hamming (a.take b.length) b := by
  obtain ⟨i, heq, _, hmin, _⟩ := subhamming_spec a b h
  have h0 := hmin 0 (by omega)
  rw [heq]
  simpa [List.drop_zero] using h0

end SubhammingLemmas

/-- C1: for `len(a) ≥ len(b)`, `subhamming a b` returns the triple (minimum
over all in-range offsets of the Hamming distance between the length-`len(b)`
window of `a` at that offset and `b`, the smallest offset achieving that
minimum, `len(b)`); for `len(a) < len(b)` it returns the sentinel
`(-1, -1, -1)`. -/
theorem claim_C1_subhamming {α : Type} [DecidableEq α] (a b : List α) :
    (a.length < b.length → subhamming a b = (-1, -1, -1)) ∧
    (b.length ≤ a.length → ∃ i : Nat,
      subhamming a b =
        (hamming ((a.drop i).take b.length) b, (i : Int), (b.length : Int)) ∧
      i + b.length ≤ a.length ∧
      (∀ j : Nat, j + b.length ≤ a.length →
        hamming ((a.drop i).take b.length) b ≤
          hamming ((a.drop j).take b.length) b) ∧
      (∀ j : Nat, j < i →
        hamming ((a.drop i).take b.length) b <
          hamming ((a.drop j).take b.length) b)) :=
  ⟨subhamming_short a b, subhamming_spec a b⟩

/-- Witness for C1 at concrete inputs: the sentinel case at `[1]` vs `[1,2]`. -/
theorem claim_C1_subhamming_witness :
    subhamming ([1] : List Nat) [1, 2] = (-1, -1, -1) :=
  (claim_C1_subhamming [1] [1, 2]).1 (by decide)

/-- C9: `hamming` is symmetric, and for `len(a) ≥ len(b)` the minimum distance
returned by `subhamming a b` never exceeds the Hamming distance at offset 0,
i.e. `hamming a[0:len(b)] b`. -/
theorem claim_C9_hamming_symm_subhamming_le (α : Type) [DecidableEq α]
    (a b : List α) :
    hamming a b = hamming b a ∧
    (b.length ≤ a.length →
      (subhamming a b).1 ≤ hamming (a.take b.length) b) :=
  ⟨hamming_comm a b, subhamming_fst_le_offset0 a b⟩

/-- Witness for C9 at concrete inputs. -/
theorem claim_C9_witness :
    (hamming ([1, 2] : List Nat) [2, 1] = hamming [2, 1] [1, 2]) ∧
    (subhamming ([1, 2, 3] : List Nat) [3, 3]).1 ≤
      hamming (([1, 2, 3] : List Nat).take 2) [3, 3] :=
  ⟨(claim_C9_hamming_symm_subhamming_le Nat [1, 2] [2, 1]).1,
   (claim_C9_hamming_symm_subhamming_le Nat [1, 2, 3] [3, 3]).2 (by decide)⟩

/-!
Data model of src/brainscopypaste/mine.py. The storage entities (class
`Quote`, `Url`, `Cluster` of brainscopypaste/db.py, which is not part of the
sources at hand) are embedded with exactly the fields the mining core reads:
a quote's identifier, token and lemma sequences and the timestamps of its own
occurrences; an occurrence ("url"/"surl"/"durl") with its timestamp and its
quote; a cluster with its list of occurrences. `source.cluster` is passed
explicitly as the `Cluster` argument.
-/

/-- A quote, with the fields read by the miner: `id`, `tokens`, `lemmas`, and
the timestamps of its own occurrences (`source.urls` is read only for the
timestamps of the occurrences). -/
structure Quote where
  id : Nat
  tokens : List String
  lemmas : List String
  urlTimestamps : List Nat
deriving DecidableEq

/-- An occurrence of a quote (called `url`, `surl` or `durl` in the source):
a timestamp and the quote it belongs to. -/
structure Url where
  timestamp : Nat
  quote : Quote
deriving DecidableEq

/-- A cluster: its list of occurrences (`cluster.urls`). -/
structure Cluster where
  urls : List Url
deriving DecidableEq

/-- The `Time` axis enum of mine.py. -/
inductive Time
  | continuous
  | discrete
deriving DecidableEq

/-- The `Source` axis enum of mine.py. -/
inductive Source
  | all
  | majority
deriving DecidableEq

/-- The `Past` axis enum of mine.py. -/
inductive Past
  | all
  | last_bin
deriving DecidableEq

/-- The `Durl` axis enum of mine.py. -/
inductive Durl
  | all
  | exclude_past
deriving DecidableEq

/-- The four-axis model configuration (class `Model` of mine.py). -/
structure Model where
  time : Time
  source : Source
  past : Past
  durl : Durl
deriving DecidableEq

/-- Constant `Model.bin_span = timedelta(days=1)`, in seconds. -/
def binSpan : Nat := 86400

/-- Class `Interval` of mine.py. The constructor asserts `start ≤ end`; the
field `end` is spelled `stop` because `end` is a Lean keyword. -/
structure Interval where
  start : Nat
  stop : Nat
deriving DecidableEq

/-- Method `Interval.__contains__`: `start <= other < end`. -/
def Interval.contains (iv : Interval) (t : Nat) : Bool :=
  decide (iv.start ≤ t ∧ t < iv.stop)

/-- Expression `min([url.timestamp for url in cluster.urls])` (junk value `0` on an empty
cluster, where Python `min` would raise; all claims concern nonempty
clusters). -/
def clusterStart (c : Cluster) : Nat :=
  match c.urls.map (fun u => u.timestamp) with
  | [] => 0
  | t :: ts => ts.foldl min t

/-- Method `Model._past(cluster, durl)`. Timestamps are seconds from a
midnight-aligned epoch, so `datetime(cluster_start.year, ..., day)` — midnight
of the day containing `cluster_start` — is `(cluster_start / binSpan) *
binSpan`, and `timedelta` floor-division becomes `Nat` division (all
subtractions are nonnegative whenever `durl` is not before the cluster bin
start, which holds in every mining situation considered; truncated `Nat`
subtraction in `end - bin_span` yields the same interval as Python because the
result is clamped by `max cluster_start ·` and `cluster_start ≥ 0`). -/
def Model.pastInterval (m : Model) (c : Cluster) (durl : Url) : Interval :=
  let cluster_start := clusterStart c
  let cluster_bin_start := (cluster_start / binSpan) * binSpan
  let e := match m.time with
    | Time.continuous => durl.timestamp
    | Time.discrete =>
        let previous_bin_count := (durl.timestamp - cluster_bin_start) / binSpan
        max cluster_start (cluster_bin_start + previous_bin_count * binSpan)
  let s := match m.past with
    | Past.all => cluster_start
    | Past.last_bin => max cluster_start (e - binSpan)
  ⟨s, e⟩

/-- Method `Model.past_surls(cluster, durl)`: the cluster's occurrences whose
timestamp falls in the past interval. -/
def Model.pastSurls (m : Model) (c : Cluster) (durl : Url) : List Url :=
  let past := m.pastInterval c durl
  c.urls.filter (fun url => past.contains url.timestamp)

/-- Method `Model._validate_base(source, durl)`: some occurrence of the source quote
falls in the past interval. -/
def Model.validateBase (m : Model) (c : Cluster) (source : Quote) (durl : Url) :
    Bool :=
  let past := m.pastInterval c durl
  source.urlTimestamps.any (fun t => past.contains t)

/-- Maximum of a list of counts (`max(counts.values())`; the source applies it
to a nonempty dict, where the `0` default never matters). -/
def maxValue (l : List Nat) : Nat := l.foldl max 0

/-- Method `Model._validate_source_majority(source, durl)`: the source's id must
appear among the past occurrences' quote ids, and its multiplicity must equal
the maximum multiplicity (`counts[source.id] == max(counts.values())`). -/
def Model.validateSourceMajority (m : Model) (c : Cluster) (source : Quote)
    (durl : Url) : Bool :=
  let past_quote_ids := (m.pastSurls c durl).map (fun surl => surl.quote.id)
  if source.id ∈ past_quote_ids then
    if past_quote_ids.isEmpty then false
    else decide (past_quote_ids.count source.id =
      maxValue (past_quote_ids.dedup.map (fun i => past_quote_ids.count i)))
  else false

/-- Method `Model._validate_durl_exclude_past(source, durl)`: the destination's quote
must not already appear among the past occurrences' quotes. -/
def Model.validateDurlExcludePast (m : Model) (c : Cluster) (durl : Url) :
    Bool :=
  let past_quotes := (m.pastSurls c durl).map (fun surl => surl.quote)
  decide (durl.quote ∉ past_quotes)

/-- Method `Model._validate_source`: dispatch on the `Source` axis
(`Source.all ↦ _ok`, `Source.majority ↦ _validate_source_majority`). -/
def Model.validateSource (m : Model) (c : Cluster) (source : Quote)
    (durl : Url) : Bool :=
  match m.source with
  | Source.all => true
  | Source.majority => m.validateSourceMajority c source durl

/-- Method `Model._validate_durl`: dispatch on the `Durl` axis
(`Durl.all ↦ _ok`, `Durl.exclude_past ↦ _validate_durl_exclude_past`). -/
def Model.validateDurl (m : Model) (c : Cluster) (durl : Url) : Bool :=
  match m.durl with
  | Durl.all => true
  | Durl.exclude_past => m.validateDurlExcludePast c durl

/-- Method `Model.validate(source, durl)`: short-circuit conjunction of the base,
source and durl rules, in that order. -/
def Model.validate (m : Model) (c : Cluster) (source : Quote) (durl : Url) :
    Bool :=
  m.validateBase c source durl &&
    m.validateSource c source durl &&
      m.validateDurl c durl

/-- C8: for every interval `Interval(a, b)` with `a ≤ b` and every time `t`,
`contains t` is true iff `a ≤ t < b`; the left endpoint is included (when the
interval is nonempty) and the right endpoint excluded. -/
theorem claim_C8_interval_contains (a b t : Nat) (h : a ≤ b) :
    ((Interval.mk a b).contains t = true ↔ (a ≤ t ∧ t < b)) ∧
    (Interval.mk a b).contains b = false ∧
    (a < b → (Interval.mk a b).contains a = true) := by
  refine ⟨by simp [Interval.contains], ?_, ?_⟩
  · simp [Interval.contains]
  · intro hab
    simp only [Interval.contains, decide_eq_true_eq]
    exact ⟨le_refl a, hab⟩

/-- Witness for C8 at `Interval(2, 5)`, `t = 2`. -/
theorem claim_C8_witness :
    (((Interval.mk 2 5).contains 2 = true) ↔ (2 ≤ 2 ∧ 2 < 5)) ∧
    (Interval.mk 2 5).contains 5 = false ∧
    (2 < 5 → (Interval.mk 2 5).contains 2 = true) :=
  claim_C8_interval_contains 2 5 2 (by decide)

/-- C2: `Model.validate(source, durl)` is the conjunction, in the fixed order
base/source/durl, of: (1) at least one occurrence of the source quote falls
inside the past interval for (source's cluster, durl); (2) the source rule of
the configured source axis; (3) the destination rule of the configured durl
axis. -/
theorem claim_C2_validate_conjunction (m : Model) (c : Cluster)
    (source : Quote) (durl : Url) :
    m.validate c source durl = true ↔
      ((∃ t ∈ source.urlTimestamps,
          (m.pastInterval c durl).contains t = true) ∧
        m.validateSource c source durl = true ∧
        m.validateDurl c durl = true) := by
  simp [Model.validate, Model.validateBase, Bool.and_eq_true,
    List.any_eq_true, and_assoc]

/-- Counterexample to C3 as stated: one cluster occurrence at 10:00 of day 0
(t = 36000) and a destination occurrence the same day at 15:00 (t = 54000,
so k = 0 ≥ 0). The discrete past interval's end is 36000, the (unaligned)
cluster start, because the day-bin boundary 0 precedes the cluster start and
is clamped; hence the end is not aligned to a whole-day boundary. -/
theorem claim_C3_counterexample :
    clusterStart (Cluster.mk [Url.mk 36000 (Quote.mk 1 [] [] [36000])]) =
      36000 ∧
    36000 / binSpan = 0 ∧ 54000 / binSpan = 0 ∧
    ((Model.mk Time.discrete Source.all Past.all Durl.all).pastInterval
        (Cluster.mk [Url.mk 36000 (Quote.mk 1 [] [] [36000])])
        (Url.mk 54000 (Quote.mk 1 [] [] [36000]))).stop % binSpan ≠ 0 := by
  decide

/-- C3 amended: for a discrete-time model and a destination occurrence not
earlier than the cluster start, the past interval's end is either aligned to
a whole-day (midnight) boundary or equal to the cluster start time (the
alignment claim fails exactly when the day-bin boundary is clamped up to an
unaligned cluster start), and it is ≥ the cluster start and ≤ the
destination's timestamp. -/
theorem claim_C3_discrete_end (m : Model) (c : Cluster) (durl : Url)
    (htime : m.time = Time.discrete)
    (hts : clusterStart c ≤ durl.timestamp) :
    ((m.pastInterval c durl).stop % binSpan = 0 ∨
      (m.pastInterval c durl).stop = clusterStart c) ∧
    clusterStart c ≤ (m.pastInterval c durl).stop ∧
    (m.pastInterval c durl).stop ≤ durl.timestamp := by
  rcases m with ⟨mt, ms, mp, md⟩
  simp only at htime
  subst htime
  simp only [Model.pastInterval, binSpan]
  omega

/-- Witness for C3 (amended): a cluster start at 36000 and a destination two
days later at 200000. -/
theorem claim_C3_discrete_end_witness :
    (((Model.mk Time.discrete Source.all Past.all Durl.all).pastInterval
        (Cluster.mk [Url.mk 36000 (Quote.mk 1 [] [] [36000])])
        (Url.mk 200000 (Quote.mk 1 [] [] [36000]))).stop % binSpan = 0 ∨
      ((Model.mk Time.discrete Source.all Past.all Durl.all).pastInterval
        (Cluster.mk [Url.mk 36000 (Quote.mk 1 [] [] [36000])])
        (Url.mk 200000 (Quote.mk 1 [] [] [36000]))).stop =
        clusterStart (Cluster.mk [Url.mk 36000 (Quote.mk 1 [] [] [36000])])) ∧
    clusterStart (Cluster.mk [Url.mk 36000 (Quote.mk 1 [] [] [36000])]) ≤
      ((Model.mk Time.discrete Source.all Past.all Durl.all).pastInterval
        (Cluster.mk [Url.mk 36000 (Quote.mk 1 [] [] [36000])])
        (Url.mk 200000 (Quote.mk 1 [] [] [36000]))).stop ∧
    ((Model.mk Time.discrete Source.all Past.all Durl.all).pastInterval
        (Cluster.mk [Url.mk 36000 (Quote.mk 1 [] [] [36000])])
        (Url.mk 200000 (Quote.mk 1 [] [] [36000]))).stop ≤ 200000 :=
  claim_C3_discrete_end _ _ _ rfl (by decide)

section ClusterStartLemmas

theorem foldl_min_le_init (ts : List Nat) (t : Nat) : ts.foldl min t ≤ t := by
  induction ts generalizing t with
  | nil => exact le_refl t
  | cons y ys ih =>
    calc (y :: ys).foldl min t = ys.foldl min (min t y) := rfl
    _ ≤ min t y := ih (min t y)
    _ ≤ t := min_le_left t y

theorem foldl_min_le_mem (ts : List Nat) (t x : Nat) (hx : x ∈ ts) :
    ts.foldl min t ≤ x := by
  induction ts generalizing t with
  | nil => simp at hx
  | cons y ys ih =>
    rcases List.mem_cons.mp hx with h | h
    · subst h
      calc ys.foldl min (min t x) ≤ min t x := foldl_min_le_init ys (min t x)
      _ ≤ x := min_le_right t x
    · exact ih (min t y) h

theorem clusterStart_le_of_mem (c : Cluster) (u : Url) (hmem : u ∈ c.urls) :
    clusterStart c ≤ u.timestamp := by
  rcases c with ⟨urls⟩
  cases urls with
  | nil => simp at hmem
  | cons u0 us =>
    rcases List.mem_cons.mp hmem with h | h
    · subst h
      simpa [clusterStart] using
        foldl_min_le_init (us.map (fun v => v.timestamp)) u.timestamp
    · exact foldl_min_le_mem (us.map (fun v => v.timestamp)) u0.timestamp
        u.timestamp (List.mem_map_of_mem _ h)

end ClusterStartLemmas

/-- C10: for every model configuration (all 16 axis combinations) and every
destination occurrence belonging to the cluster, `Model._past` computes
`start ≤ end`, so the `Interval` constructor's `assert start <= end` cannot
fail during mining and a valid interval is always returned. -/
theorem claim_C10_past_interval_valid (m : Model) (c : Cluster) (durl : Url)
    (hmem : durl ∈ c.urls) :
    (m.pastInterval c durl).start ≤ (m.pastInterval c durl).stop := by
  have hts : clusterStart c ≤ durl.timestamp :=
    clusterStart_le_of_mem c durl hmem
  rcases m with ⟨mt, ms, mp, md⟩
  cases mt <;> cases mp <;>
    simp only [Model.pastInterval, binSpan] <;> omega

/-- Witness for C10 at a concrete model and cluster. -/
theorem claim_C10_witness :
    ((Model.mk Time.discrete Source.majority Past.last_bin Durl.exclude_past).pastInterval
        (Cluster.mk [Url.mk 36000 (Quote.mk 1 [] [] [36000])])
        (Url.mk 36000 (Quote.mk 1 [] [] [36000]))).start ≤
      ((Model.mk Time.discrete Source.majority Past.last_bin Durl.exclude_past).pastInterval
        (Cluster.mk [Url.mk 36000 (Quote.mk 1 [] [] [36000])])
        (Url.mk 36000 (Quote.mk 1 [] [] [36000]))).stop :=
  claim_C10_past_interval_valid _ _ _ (by simp)

section MaxValueLemmas

theorem foldl_max_le (l : List Nat) (a b : Nat) (ha : a ≤ b)
    (h : ∀ x ∈ l, x ≤ b) : l.foldl max a ≤ b := by
  induction l generalizing a with
  | nil => exact ha
  | cons y ys ih =>
    exact ih (max a y) (max_le ha (h y (List.mem_cons_self y ys)))
      (fun x hx => h x (List.mem_cons_of_mem y hx))

theorem le_foldl_max_init (l : List Nat) (a : Nat) : a ≤ l.foldl max a := by
  induction l generalizing a with
  | nil => exact le_refl a
  | cons y ys ih => exact le_trans (le_max_left a y) (ih (max a y))

theorem le_foldl_max (l : List Nat) (a x : Nat) (hx : x ∈ l) :
    x ≤ l.foldl max a := by
  induction l generalizing a with
  | nil => simp at hx
  | cons y ys ih =>
    rcases List.mem_cons.mp hx with h | h
    · subst h
      exact le_trans (le_max_right a x) (le_foldl_max_init ys (max a x))
    · exact ih (max a y) h

theorem maxValue_le (l : List Nat) (b : Nat) (h : ∀ x ∈ l, x ≤ b) :
    maxValue l ≤ b :=
  foldl_max_le l 0 b (Nat.zero_le b) h

theorem le_maxValue (l : List Nat) (x : Nat) (hx : x ∈ l) : x ≤ maxValue l :=
  le_foldl_max l 0 x hx

/-- The body of `_validate_source_majority` over a bare list of past quote
ids: it accepts `sid` iff `sid` occurs among the ids and its multiplicity
dominates every multiplicity (i.e. equals the maximum count). -/
theorem majority_iff (ids : List Nat) (sid : Nat) :
    ((if sid ∈ ids then
        if ids.isEmpty then false
        else decide (ids.count sid =
          maxValue (ids.dedup.map (fun i => ids.count i)))
      else false) = true) ↔
      (sid ∈ ids ∧ ∀ i ∈ ids, ids.count i ≤ ids.count sid) := by
  by_cases hmem : sid ∈ ids
  · have hne : ids.isEmpty = false := by
      cases ids
      · simp at hmem
      · simp
    rw [if_pos hmem, hne]
    simp only [Bool.false_eq_true, if_false, decide_eq_true_eq]
    constructor
    · intro heq
      refine ⟨hmem, fun i hi => ?_⟩
      have hle : ids.count i ≤ maxValue (ids.dedup.map (fun j => ids.count j)) :=
        le_maxValue _ _ (List.mem_map_of_mem _ (List.mem_dedup.mpr hi))
      rw [heq]
      exact hle
    · intro ⟨_, hdom⟩
      apply le_antisymm
      · exact le_maxValue _ _ (List.mem_map_of_mem _ (List.mem_dedup.mpr hmem))
      · apply maxValue_le
        intro x hx
        obtain ⟨i, hi, rfl⟩ := List.mem_map.mp hx
        exact hdom i (List.mem_dedup.mp hi)
  · simp [hmem]

end MaxValueLemmas

/-- Concrete majority scenario of the spec: quote A with three past
occurrences, quote B with one, destination quote C occurring later. -/
def exQuoteA : Quote := ⟨1, [], [], [0, 1, 2]⟩

def exQuoteB : Quote := ⟨2, [], [], [3]⟩

def exQuoteC : Quote := ⟨3, [], [], [10]⟩

def exMajorityCluster : Cluster :=
  ⟨[⟨0, exQuoteA⟩, ⟨1, exQuoteA⟩, ⟨2, exQuoteA⟩, ⟨3, exQuoteB⟩,
    ⟨10, exQuoteC⟩]⟩

def exMajorityDurl : Url := ⟨10, exQuoteC⟩

def exMajorityModel : Model :=
  ⟨Time.continuous, Source.majority, Past.all, Durl.all⟩

/-- C4: under the majority source configuration, the source rule passes a
quote iff its id occurs among the past occurrences' quote ids with a
multiplicity dominating all multiplicities — i.e. its occurrence count equals
the maximum count, ties included; and in the concrete three-A/one-B scenario
only A passes. -/
theorem claim_C4_source_majority (m : Model) (c : Cluster) (source : Quote)
    (durl : Url) (hmaj : m.source = Source.majority) :
    (m.validateSource c source durl = true ↔
      (source.id ∈ (m.pastSurls c durl).map (fun surl => surl.quote.id) ∧
        ∀ i ∈ (m.pastSurls c durl).map (fun surl => surl.quote.id),
          ((m.pastSurls c durl).map (fun surl => surl.quote.id)).count i ≤
            ((m.pastSurls c durl).map
              (fun surl => surl.quote.id)).count source.id)) ∧
    (exMajorityModel.validateSource exMajorityCluster exQuoteA
        exMajorityDurl = true ∧
      exMajorityModel.validateSource exMajorityCluster exQuoteB
        exMajorityDurl = false) := by
  constructor
  · rcases m with ⟨mt, ms, mp, md⟩
    simp only at hmaj
    subst hmaj
    show Model.validateSourceMajority _ _ _ _ = true ↔ _
    simp only [Model.validateSourceMajority]
    exact majority_iff _ _
  · exact ⟨by decide, by decide⟩

/-- Witness for C4: in the three-A/one-B scenario, quote A passes the
majority source rule. -/
theorem claim_C4_witness :
    exMajorityModel.validateSource exMajorityCluster exQuoteA
      exMajorityDurl = true :=
  ((claim_C4_source_majority exMajorityModel exMajorityCluster exQuoteA
    exMajorityDurl rfl).1).mpr (by decide)

/-- Modelled from the spec: `brainscopypaste.utils.subhamming`, imported by
mine.py, lives in utils.py which is not among the sources at hand. Per spec
§4.2 it slides a window of length `len(b)` over `a` computing the Hamming
distance at every offset and returns the minimum distance and the smallest
offset achieving it (mine.py unpacks exactly two values), with a sentinel
invalid result when `len(a) < len(b)`. This is the algorithm of `subhamming`
in src/linguistics/memetracker.py restricted to its first two components,
which is how it is modelled. -/
def subhammingU {α : Type} [DecidableEq α] (a b : List α) : Int × Int :=
  ((subhamming a b).1, (subhamming a b).2.1)

/-- Expression `np.where([c1 != c2 for (c1, c2) in zip(slemmas, dlemmas)])[0]`: the
indices, counted from `k`, of the mismatching pairs. -/
def wherePositions {α : Type} [DecidableEq α] : List (α × α) → Nat → List Nat
  | [], _ => []
  | p :: rest, k =>
      if p.1 ≠ p.2 then k :: wherePositions rest (k + 1)
      else wherePositions rest (k + 1)

/-- Modelled from the spec: class `Substitution` of brainscopypaste/db.py is
not among the sources at hand; per spec §3 it references the source quote,
the destination quote, the destination occurrence, the integer alignment
offset `start` and the integer `position` of the single differing lemma. -/
structure Substitution where
  source : Quote
  destination : Quote
  occurrence : Url
  start : Nat
  position : Nat
deriving DecidableEq

/-- Method `ClusterMinerMixin._substitution(source, durl, start, model)`: build the
substitution, recovering `position` as the single index where the aligned
slice `source.lemmas[start:start + len(dlemmas)]` differs from the
destination lemmas (`positions[0]`; `positions.headD 0` embeds the `[0]`
indexing guarded in the source by `assert len(positions) == 1`). -/
def substitutionAt (source : Quote) (durl : Url) (start : Nat) :
    Substitution :=
  let dlemmas := durl.quote.lemmas
  let slemmas := (source.lemmas.drop start).take dlemmas.length
  let positions := wherePositions (slemmas.zip dlemmas) 0
  ⟨source, durl.quote, durl, start, positions.headD 0⟩

/-- Method `ClusterMinerMixin.substitutions(model)`: for each destination occurrence
of the cluster, consider the set of distinct past quotes other than the
destination's own quote; skip sources shorter than the destination; emit a
substitution whenever the subhamming distance is exactly 1 and the model
validates the pair. The generator is embedded as the list of emitted
substitutions. -/
def Cluster.substitutions (c : Cluster) (m : Model) : List Substitution :=
  c.urls.flatMap (fun durl =>
    ((((m.pastSurls c durl).map (fun surl => surl.quote)).dedup).filter
        (fun q => q ≠ durl.quote)).filterMap
      (fun source =>
        if source.lemmas.length < durl.quote.lemmas.length then none
        else if (subhammingU source.lemmas durl.quote.lemmas).1 = 1 ∧
            m.validate c source durl = true then
          some (substitutionAt source durl
            (subhammingU source.lemmas durl.quote.lemmas).2.toNat)
        else none))

section WherePositionsLemmas

variable {α : Type} [DecidableEq α]

theorem mem_wherePositions : ∀ (l : List (α × α)) (k j : Nat),
    j ∈ wherePositions l k ↔
      (k ≤ j ∧ ∃ p, l[j - k]? = some p ∧ p.1 ≠ p.2)
  | [], k, j => by simp [wherePositions]
  | p :: rest, k, j => by
    rw [wherePositions]
    by_cases hp : p.1 ≠ p.2
    · rw [if_pos hp]
      simp only [List.mem_cons]
      rw [mem_wherePositions rest (k + 1) j]
      constructor
      · rintro (rfl | ⟨hk, q, hq, hne⟩)
        · exact ⟨le_refl j, p, by simp, hp⟩
        · refine ⟨by omega, q, ?_, hne⟩
          have h1 : j - k = (j - (k + 1)) + 1 := by omega
          rw [h1]
          simpa using hq
      · rintro ⟨hk, q, hq, hne⟩
        by_cases hjk : j = k
        · exact Or.inl hjk
        · right
          refine ⟨by omega, q, ?_, hne⟩
          have h1 : j - k = (j - (k + 1)) + 1 := by omega
          rw [h1] at hq
          simpa using hq
    · rw [if_neg hp]
      rw [mem_wherePositions rest (k + 1) j]
      have hpq : p.1 = p.2 := not_not.mp hp
      constructor
      · rintro ⟨hk, q, hq, hne⟩
        refine ⟨by omega, q, ?_, hne⟩
        have h1 : j - k = (j - (k + 1)) + 1 := by omega
        rw [h1]
        simpa using hq
      · rintro ⟨hk, q, hq, hne⟩
        by_cases hjk : j = k
        · subst hjk
          rw [Nat.sub_self] at hq
          simp only [List.getElem?_cons_zero, Option.some_inj] at hq
          subst hq
          exact absurd hpq hne
        · refine ⟨by omega, q, ?_, hne⟩
          have h1 : j - k = (j - (k + 1)) + 1 := by omega
          rw [h1] at hq
          simpa using hq

theorem length_wherePositions : ∀ (l : List (α × α)) (k : Nat),
    (wherePositions l k).length = l.countP (fun p => !decide (p.1 = p.2))
  | [], k => by simp [wherePositions]
  | p :: rest, k => by
    rw [wherePositions, List.countP_cons]
    by_cases hp : p.1 ≠ p.2
    · rw [if_pos hp]
      simp [length_wherePositions rest (k + 1), hp]
    · rw [if_neg hp]
      simp [length_wherePositions rest (k + 1), not_not.mp hp]

theorem hamming_one_countP (s d : List α) (hlen : s.length = d.length)
    (h : hamming s d = 1) :
    (s.zip d).countP (fun p => !decide (p.1 = p.2)) = 1 := by
  simp only [hamming] at h
  rw [if_neg (not_not_intro hlen)] at h
  have hc : (s.zip d).countP (fun p => decide (p.1 ≠ p.2)) = 1 := by
    exact_mod_cast h
  simpa [decide_not] using hc

end WherePositionsLemmas

/-- C5: every substitution emitted by the miner satisfies: the aligned source
window `source.lemmas[start : start + len(destination.lemmas)]` has the
destination's length, exactly one index differs between the window and the
destination lemmas, and the emitted `position` is that unique differing
index. -/
theorem claim_C5_substitution_position (c : Cluster) (m : Model)
    (sub : Substitution) (hsub : sub ∈ c.substitutions m) :
    ((sub.source.lemmas.drop sub.start).take
        sub.destination.lemmas.length).length =
      sub.destination.lemmas.length ∧
    sub.position < sub.destination.lemmas.length ∧
    ((sub.source.lemmas.drop sub.start).take
        sub.destination.lemmas.length)[sub.position]? ≠
      sub.destination.lemmas[sub.position]? ∧
    (∀ j : Nat, j ≠ sub.position →
      ((sub.source.lemmas.drop sub.start).take
          sub.destination.lemmas.length)[j]? =
        sub.destination.lemmas[j]?) := by
  obtain ⟨durl, hdurl, hin⟩ := List.mem_flatMap.mp hsub
  obtain ⟨source, hsrc, hsome⟩ := List.mem_filterMap.mp hin
  by_cases hlt : source.lemmas.length < durl.quote.lemmas.length
  · rw [if_pos hlt] at hsome
    exact absurd hsome (by simp)
  · rw [if_neg hlt] at hsome
    by_cases hcond : (subhammingU source.lemmas durl.quote.lemmas).1 = 1 ∧
        m.validate c source durl = true
    · rw [if_pos hcond] at hsome
      obtain rfl := (Option.some.inj hsome).symm
      have hlen2 : durl.quote.lemmas.length ≤ source.lemmas.length :=
        le_of_not_lt hlt
      obtain ⟨i, hspec_eq, hrange, hmin, hfirst⟩ :=
        subhamming_spec source.lemmas durl.quote.lemmas hlen2
      have hst : (subhammingU source.lemmas durl.quote.lemmas).2.toNat = i := by
        rw [subhammingU, hspec_eq]
        simp
      have hdist1 : hamming
          ((source.lemmas.drop i).take durl.quote.lemmas.length)
          durl.quote.lemmas = 1 := by
        have h1 := hcond.1
        rw [subhammingU, hspec_eq] at h1
        simpa using h1
      have hwl : ((source.lemmas.drop i).take
          durl.quote.lemmas.length).length = durl.quote.lemmas.length :=
        length_window source.lemmas i durl.quote.lemmas.length hrange
      have hcount := hamming_one_countP _ _ hwl hdist1
      have hwp_len : (wherePositions
          (((source.lemmas.drop i).take durl.quote.lemmas.length).zip
            durl.quote.lemmas) 0).length = 1 := by
        rw [length_wherePositions]
        exact hcount
      obtain ⟨pos, hpos⟩ := List.length_eq_one.mp hwp_len
      have hzlen : (((source.lemmas.drop i).take
          durl.quote.lemmas.length).zip durl.quote.lemmas).length =
          durl.quote.lemmas.length := by
        rw [List.length_zip, hwl]
        exact min_self _
      have hsub_fields : substitutionAt source durl
          ((subhammingU source.lemmas durl.quote.lemmas).2.toNat) =
          ⟨source, durl.quote, durl, i,
            (wherePositions
              (((source.lemmas.drop i).take durl.quote.lemmas.length).zip
                durl.quote.lemmas) 0).headD 0⟩ := by
        rw [hst]
        rfl
      rw [hsub_fields, hpos]
      have hposD : ([pos].headD 0 : Nat) = pos := rfl
      simp only [hposD]
      have hpos_mem : pos ∈ wherePositions
          (((source.lemmas.drop i).take durl.quote.lemmas.length).zip
            durl.quote.lemmas) 0 := by
        rw [hpos]
        exact List.mem_singleton_self pos
      obtain ⟨-, p, hget, hne⟩ :=
        (mem_wherePositions _ 0 pos).mp hpos_mem
      rw [Nat.sub_zero] at hget
      obtain ⟨hplen, hpval⟩ := List.getElem?_eq_some_iff.mp hget
      have hpos_lt : pos < durl.quote.lemmas.length := by
        rw [hzlen] at hplen
        exact hplen
      have hpos_lt_w : pos < ((source.lemmas.drop i).take
          durl.quote.lemmas.length).length := by
        rw [hwl]
        exact hpos_lt
      have hpair : p = (((source.lemmas.drop i).take
            durl.quote.lemmas.length).get ⟨pos, hpos_lt_w⟩,
          durl.quote.lemmas.get ⟨pos, hpos_lt⟩) := by
        rw [← hpval]
        simp only [List.get_eq_getElem]
        exact List.getElem_zip
      simp only [List.get_eq_getElem] at hpair
      refine ⟨hwl, hpos_lt, ?_, ?_⟩
      · rw [List.getElem?_eq_getElem hpos_lt_w,
          List.getElem?_eq_getElem hpos_lt]
        intro hcontra
        apply hne
        rw [hpair]
        exact Option.some.inj hcontra
      · intro j hj
        by_cases hjlen : j < durl.quote.lemmas.length
        · have hjlen_w : j < ((source.lemmas.drop i).take
              durl.quote.lemmas.length).length := by
            rw [hwl]
            exact hjlen
          rw [List.getElem?_eq_getElem hjlen_w,
            List.getElem?_eq_getElem hjlen]
          by_contra hcontra
          have hne_j : ((source.lemmas.drop i).take
              durl.quote.lemmas.length).get ⟨j, hjlen_w⟩ ≠
              durl.quote.lemmas.get ⟨j, hjlen⟩ := by
            simp only [List.get_eq_getElem]
            intro he
            exact hcontra (congrArg some he)
          simp only [List.get_eq_getElem] at hne_j
          have hj_mem : j ∈ wherePositions
              (((source.lemmas.drop i).take durl.quote.lemmas.length).zip
                durl.quote.lemmas) 0 := by
            apply (mem_wherePositions _ 0 j).mpr
            refine ⟨Nat.zero_le j, (((source.lemmas.drop i).take
                durl.quote.lemmas.length).get ⟨j, hjlen_w⟩,
              durl.quote.lemmas.get ⟨j, hjlen⟩), ?_, by
                simpa [List.get_eq_getElem] using hne_j⟩
            rw [Nat.sub_zero]
            have hjz : j < (((source.lemmas.drop i).take
                durl.quote.lemmas.length).zip durl.quote.lemmas).length := by
              rw [hzlen]
              exact hjlen
            rw [List.getElem?_eq_getElem hjz]
            rw [List.getElem_zip]
            simp [List.get_eq_getElem]
          rw [hpos] at hj_mem
          exact hj (List.mem_singleton.mp hj_mem)
        · have h1 : durl.quote.lemmas[j]? = none :=
            List.getElem?_eq_none (by omega)
          have h2 : ((source.lemmas.drop i).take
              durl.quote.lemmas.length)[j]? = none :=
            List.getElem?_eq_none (by rw [hwl]; omega)
          rw [h1, h2]
    · rw [if_neg hcond] at hsome
      exact absurd hsome (by simp)

/-- End-to-end example of the spec: source quote "It is the containing part".
-/
def exSourceQuote : Quote :=
  ⟨1, ["It", "is", "the", "containing", "part"],
    ["it", "is", "the", "contain", "part"], [0]⟩

/-- End-to-end example of the spec: destination quote "It is the other part".
-/
def exDestQuote : Quote :=
  ⟨2, ["It", "is", "the", "other", "part"],
    ["it", "is", "the", "other", "part"], [10]⟩

def exMineDurl : Url := ⟨10, exDestQuote⟩

def exMineCluster : Cluster := ⟨[⟨0, exSourceQuote⟩, exMineDurl]⟩

def exMineModel : Model := ⟨Time.continuous, Source.all, Past.all, Durl.all⟩

/-- The single substitution mined in the end-to-end example: start 0,
position 3 ("contain" → "other"). -/
def exMineSub : Substitution := ⟨exSourceQuote, exDestQuote, exMineDurl, 0, 3⟩

/-- Witness for C5 on the end-to-end example substitution. -/
theorem claim_C5_witness :
    ((exMineSub.source.lemmas.drop exMineSub.start).take
        exMineSub.destination.lemmas.length).length =
      exMineSub.destination.lemmas.length ∧
    exMineSub.position < exMineSub.destination.lemmas.length ∧
    ((exMineSub.source.lemmas.drop exMineSub.start).take
        exMineSub.destination.lemmas.length)[exMineSub.position]? ≠
      exMineSub.destination.lemmas[exMineSub.position]? ∧
    ((exMineSub.source.lemmas.drop exMineSub.start).take
        exMineSub.destination.lemmas.length)[0]? =
      exMineSub.destination.lemmas[0]? := by
  have h := claim_C5_substitution_position exMineCluster exMineModel
    exMineSub (by decide)
  exact ⟨h.1, h.2.1, h.2.2.1, h.2.2.2 0 (by decide)⟩

/-- Python slice `s[:n]` on a string. -/
def strTake (n : Nat) (s : String) : String := String.mk (s.data.take n)

/-- Python slice `s[:-2]` on a string (empty when `len(s) ≤ 2`). -/
def strDropLast2 (s : String) : String :=
  String.mk (s.data.dropLast.dropLast)

/-- Python slice `s[-2:]` on a string (the whole string when `len(s) < 2`). -/
def strLast2 (s : String) : String :=
  String.mk (s.data.drop (s.data.length - 2))

/-- Python indexing `s[0]`, as a one-character string (empty on the empty
string, where Python would raise; the validator is applied to nonempty
words). -/
def strFirst (s : String) : String := String.mk (s.data.take 1)

/-- Modelled from the spec: `brainscopypaste.utils.is_int` is imported by
mine.py but utils.py is not among the sources at hand. The validator uses it
on one-character strings to reject "numeric-leading tokens" (spec §8, e.g.
"21st"); modelled as: nonempty and all characters are digits. -/
def is_int (s : String) : Bool := !s.data.isEmpty && s.data.all Char.isDigit

/-- Modelled from the spec: `brainscopypaste.utils.is_same_ending_us_uk_spelling`
is imported by mine.py but utils.py is not among the sources at hand. Per
spec §4.5 it detects a pair that "differs only by a known US/UK spelling
convention (e.g. '-re'/'-er' endings)": equal prefixes up to the last two
characters, with the two endings being "re" and "er" in either order. -/
def is_same_ending_us_uk_spelling (w1 w2 : String) : Bool :=
  strDropLast2 w1 == strDropLast2 w2 &&
    ((strLast2 w1 == "re" && strLast2 w2 == "er") ||
      (strLast2 w1 == "er" && strLast2 w2 == "re"))

/-- Inner loop of the row-based Levenshtein dynamic program of
src/linguistics/memetracker.py: walk the second string together with the
previous row (`pj` = `previous_row[j]`, `pj1` = `previous_row[j+1]`),
carrying the last cell of the current row; each cell is
`min(insertions, deletions, substitutions)`. -/
def levInner (c1 : Char) : List Char → List Nat → Nat → List Nat
  | c2 :: s2rest, pj :: pj1 :: prest, last =>
      let cell := min (pj1 + 1)
        (min (last + 1) (pj + (if c1 = c2 then 0 else 1)))
      cell :: levInner c1 s2rest (pj1 :: prest) cell
  | _, _, _ => []

/-- Outer loop of the row-based Levenshtein dynamic program: one row per
character of the first string, starting from `previous_row =
range(len(s2) + 1)`; each row starts with `i + 1`. -/
def levRows (s2 : List Char) : List Char → List Nat → Nat → List Nat
  | [], prev, _ => prev
  | c1 :: s1rest, prev, i =>
      levRows s2 s1rest ((i + 1) :: levInner c1 s2 prev (i + 1)) (i + 1)

/-- Core of `levenshtein` (after the argument swap): `len(s1)` when `s2` is
empty, otherwise the last entry of the final row. -/
def levenshteinCore (s1 s2 : List Char) : Nat :=
  if s2.isEmpty then s1.length
  else (levRows s2 s1 (List.range (s2.length + 1)) 0).getLastD 0

/-- Function `levenshtein` of src/linguistics/memetracker.py (the same-named
function that mine.py imports from brainscopypaste.utils is not among the
sources at hand; spec §4.2 describes the identical "standard
dynamic-programming edit distance ... via single-row iteration"): swap so the
first argument is the longer one, then run the row DP. -/
def levenshtein (s1 s2 : String) : Nat :=
  if s1.data.length < s2.data.length then levenshteinCore s2.data s1.data
  else levenshteinCore s1.data s2.data

/-- Method `SubstitutionValidatorMixin.validate` of mine.py, on the differing
token pair and lemma pair, parameterized by the stopword set
(`brainscopypaste.utils.stopwords` is external corpus data entering only
through membership tests). The source's early `return False`s become a
conjunction of negated rejection rules in the same order: numeric-leading,
3-character-prefix abbreviation, truncation of the last two characters,
US/UK spelling, stopword membership, edit distance ≤ 1 on tokens, edit
distance ≤ 1 on lemmas. -/
def substitutionWordsValidate (stopwords : List String)
    (token1 token2 lem1 lem2 : String) : Bool :=
  !(is_int (strFirst token1) || is_int (strFirst token2) ||
      is_int (strFirst lem1) || is_int (strFirst lem2)) &&
  !(token1 == strTake 3 token2 || token2 == strTake 3 token1 ||
      lem1 == strTake 3 lem2 || lem2 == strTake 3 lem1) &&
  !(strDropLast2 token1 == token2 || strDropLast2 token2 == token1 ||
      strDropLast2 lem1 == lem2 || strDropLast2 lem2 == lem1) &&
  !(is_same_ending_us_uk_spelling token1 token2) &&
  !(is_same_ending_us_uk_spelling lem1 lem2) &&
  !(decide (token1 ∈ stopwords) || decide (token2 ∈ stopwords) ||
      decide (lem1 ∈ stopwords) || decide (lem2 ∈ stopwords)) &&
  !(decide (levenshtein token1 token2 ≤ 1)) &&
  !(decide (levenshtein lem1 lem2 ≤ 1))

/-- Modelled from the spec (and the repository's feature tests): the
differing token pair `substitution.tokens` of brainscopypaste/db.py (not
among the sources at hand) — the source token at `start + position` and the
destination token at `position`. -/
def Substitution.tokenPair (s : Substitution) : String × String :=
  (s.source.tokens.getD (s.start + s.position) "",
    s.destination.tokens.getD s.position "")

/-- Modelled from the spec: the differing lemma pair `substitution.lemmas`
of brainscopypaste/db.py — source lemma at `start + position`, destination
lemma at `position`. -/
def Substitution.lemmaPair (s : Substitution) : String × String :=
  (s.source.lemmas.getD (s.start + s.position) "",
    s.destination.lemmas.getD s.position "")

/-- Method `SubstitutionValidatorMixin.validate` applied to a substitution's
token and lemma pairs. -/
def Substitution.isValid (stopwords : List String) (s : Substitution) :
    Bool :=
  substitutionWordsValidate stopwords s.tokenPair.1 s.tokenPair.2
    s.lemmaPair.1 s.lemmaPair.2

/-- C6: the validator accepts iff the differing pair passes every rejection
rule on both the token pair and the lemma pair (no numeric-leading word, no
3-character-prefix abbreviation, no equality after removing the last two
characters, no US/UK spelling variant, no stopword, character-level edit
distance > 1 on both pairs); consequently it rejects ("21st","twenty-first"),
("sen","senator"), ("program","programme"), ("centre","center") and
("cat","cats"), and accepts ("happy","sad") whenever neither word is a
stopword. -/
theorem claim_C6_validator (stopwords : List String)
    (token1 token2 lem1 lem2 : String) :
    (substitutionWordsValidate stopwords token1 token2 lem1 lem2 = true ↔
      ((is_int (strFirst token1) = false ∧ is_int (strFirst token2) = false ∧
          is_int (strFirst lem1) = false ∧ is_int (strFirst lem2) = false) ∧
        (token1 ≠ strTake 3 token2 ∧ token2 ≠ strTake 3 token1 ∧
          lem1 ≠ strTake 3 lem2 ∧ lem2 ≠ strTake 3 lem1) ∧
        (strDropLast2 token1 ≠ token2 ∧ strDropLast2 token2 ≠ token1 ∧
          strDropLast2 lem1 ≠ lem2 ∧ strDropLast2 lem2 ≠ lem1) ∧
        is_same_ending_us_uk_spelling token1 token2 = false ∧
        is_same_ending_us_uk_spelling lem1 lem2 = false ∧
        (token1 ∉ stopwords ∧ token2 ∉ stopwords ∧
          lem1 ∉ stopwords ∧ lem2 ∉ stopwords) ∧
        1 < levenshtein token1 token2 ∧
        1 < levenshtein lem1 lem2)) ∧
    substitutionWordsValidate stopwords "21st" "twenty-first" "21st"
      "twenty-first" = false ∧
    substitutionWordsValidate stopwords "sen" "senator" "sen" "senator" =
      false ∧
    substitutionWordsValidate stopwords "program" "programme" "program"
      "programme" = false ∧
    substitutionWordsValidate stopwords "centre" "center" "centre" "center" =
      false ∧
    substitutionWordsValidate stopwords "cat" "cats" "cat" "cats" = false ∧
    ("happy" ∉ stopwords → "sad" ∉ stopwords →
      substitutionWordsValidate stopwords "happy" "sad" "happy" "sad" =
        true) := by
  refine ⟨?_, ?_, ?_, ?_, ?_, ?_, ?_⟩
  · simp only [substitutionWordsValidate, Bool.and_eq_true, Bool.not_eq_true',
      Bool.or_eq_false_iff, decide_eq_false_iff_not, beq_eq_false_iff_ne,
      not_le, ne_eq]
    tauto
  · have h : is_int (strFirst "21st") = true := by decide
    simp [substitutionWordsValidate, h]
  · have h : ("sen" == strTake 3 "senator") = true := by decide
    simp [substitutionWordsValidate, h]
  · have h : (strDropLast2 "programme" == "program") = true := by decide
    simp [substitutionWordsValidate, h]
  · have h : is_same_ending_us_uk_spelling "centre" "center" = true := by
      decide
    simp [substitutionWordsValidate, h]
  · have h : ("cat" == strTake 3 "cats") = true := by decide
    simp [substitutionWordsValidate, h]
  · intro h1 h2
    simp only [substitutionWordsValidate, Bool.and_eq_true, Bool.not_eq_true',
      Bool.or_eq_false_iff, decide_eq_false_iff_not]
    and_intros <;> first
      | assumption
      | decide

/-- Witness for C6: with the stopword list `["the"]`, the validator accepts
("happy","sad") and rejects ("cat","cats"). -/
theorem claim_C6_witness :
    substitutionWordsValidate ["the"] "happy" "sad" "happy" "sad" = true ∧
    substitutionWordsValidate ["the"] "cat" "cats" "cat" "cats" = false := by
  have h := claim_C6_validator ["the"] "x" "y" "z" "w"
  exact ⟨h.2.2.2.2.2.2 (by decide) (by decide), h.2.2.2.2.2.1⟩

/-- Modelled from the spec: a stored cluster row of brainscopypaste/db.py
(not among the sources at hand) as seen by the miner entry point — the
cluster and its `filtered` flag. -/
structure StoredCluster where
  cluster : Cluster
  filtered : Bool
deriving DecidableEq

/-- Modelled from the spec: the storage visible to
`mine_substitutions_with_model` — the already-persisted substitutions and the
cluster rows. -/
structure Store where
  substitutions : List Substitution
  clusters : List StoredCluster
deriving DecidableEq

/-- Mining loop of `mine_substitutions_with_model`: for each filtered cluster
(capped by `limit`), mine its substitutions and commit exactly those the
validator keeps (`session.commit()` on a valid candidate, rollback
otherwise). -/
def runMining (m : Model) (stopwords : List String) (limit : Option Nat)
    (st : Store) : Store :=
  let fcs := (st.clusters.filter (fun sc => sc.filtered)).map
    (fun sc => sc.cluster)
  let fcs := match limit with
    | none => fcs
    | some n => fcs.take n
  { st with substitutions := st.substitutions ++
      fcs.flatMap (fun c => (c.substitutions m).filter
        (fun sub => sub.isValid stopwords)) }

/-- Function `mine_substitutions_with_model(model, limit)` of mine.py: before
mining anything, raise if the store already holds any substitution, then
raise if no cluster is marked filtered; only then run the mining loop. A
raised exception is embedded as `Except.error` with the message. -/
def mine_substitutions_with_model (m : Model) (stopwords : List String)
    (limit : Option Nat) (st : Store) : Except String Store :=
  if st.substitutions.length ≠ 0 then
    Except.error "There are already some mined substitutions in the database"
  else if (st.clusters.filter (fun sc => sc.filtered)).length = 0 then
    Except.error "Found no filtered clusters, aborting."
  else
    Except.ok (runMining m stopwords limit st)

/-- True exactly on `Except.error`. -/
def isErrorResult : Except String Store → Bool
  | Except.error _ => true
  | Except.ok _ => false

/-- C7: whenever the store already contains at least one substitution, or no
cluster marked as filtered exists, `mine_substitutions_with_model` raises
before mining any cluster — the result is an error and no store (hence no
substitution) is produced; in particular a second run on a store holding
previously mined substitutions aborts rather than double-inserting. -/
theorem claim_C7_mining_guard (m : Model) (stopwords : List String)
    (limit : Option Nat) (st : Store)
    (h : st.substitutions ≠ [] ∨
      st.clusters.filter (fun sc => sc.filtered) = []) :
    isErrorResult (mine_substitutions_with_model m stopwords limit st) =
      true := by
  rcases h with h | h
  · have hl : st.substitutions.length ≠ 0 := by
      simpa [List.length_eq_zero] using h
    simp [mine_substitutions_with_model, hl, isErrorResult]
  · by_cases hs : st.substitutions.length ≠ 0
    · simp [mine_substitutions_with_model, hs, isErrorResult]
    · have hlen : (st.clusters.filter (fun sc => sc.filtered)).length = 0 :=
        by rw [h]; rfl
      simp [mine_substitutions_with_model, hs, hlen, isErrorResult]

/-- Witness for C7: a store that already holds one mined substitution (the
end-to-end example one) makes the entry point abort. -/
theorem claim_C7_witness :
    isErrorResult (mine_substitutions_with_model exMineModel [] none
      (Store.mk [exMineSub] [StoredCluster.mk exMineCluster true])) = true :=
  claim_C7_mining_guard exMineModel [] none
    (Store.mk [exMineSub] [StoredCluster.mk exMineCluster true])
    (Or.inl (by decide))

end WebQuotes
